import Mathlib

/-!
Verification of the book-analysis orchestration pipeline of `chatbotmaker`
(backend/services/aiService.js) against its natural-language specification.

The JavaScript source is shallowly embedded: JS strings are modelled as
`List Char` (the pipeline only handles BMP text, where UTF-16 length and
code-point length agree) or as Lean `String` where only whole-string
operations occur; fallible code returns `Option`/`Except`; the external
LLM service is an oracle function supplied as a parameter; the bounded
retry/continuation constants imported from `config/constants.js` (whose
numeric values are not part of the repository snapshot) are universally
quantified parameters.
-/

namespace CBM

/-! ## Budget calculator (analyzeBook, lines 521-522)

`const safeContextSize = Math.floor(contextLength * CONTEXT_INPUT_RATIO);`
`const maxCharsForInput = safeContextSize * CHARS_PER_TOKEN;`
with `CONTEXT_INPUT_RATIO = 0.5` and `CHARS_PER_TOKEN = 4`
(config/constants.js).  For a natural-number `contextLength`,
`Math.floor(contextLength * 0.5)` is exactly `contextLength / 2`
in natural division. -/

def CHARS_PER_TOKEN : Nat := 4

def safeContextSize (contextLength : Nat) : Nat := contextLength / 2

def maxCharsForInputOf (contextLength : Nat) : Nat :=
  safeContextSize contextLength * CHARS_PER_TOKEN

/-! ## Concurrency limiter (runWithConcurrency, lines 399-416)

The source pre-sizes `results = new Array(tasks.length)`, and each worker
atomically claims `const index = nextIndex++` and later performs
`results[index] = await tasks[index]()`.  Each index `i < n` is therefore
claimed by exactly one worker and written exactly once, with the value
`tasks[i]()`; only the *order* of the writes depends on the scheduler.
We model one execution as the sequence `order` in which the task writes
complete: the buffer starts as `n` unfilled slots and the write for task
`i` stores `some (f i)` at position `i`.  A completed execution is one
whose write order is a permutation of all task indices. -/

def runWithConcurrency (f : Nat → α) (n : Nat) (order : List Nat) : List (Option α) :=
  order.foldl (fun acc i => acc.set i (some (f i))) (List.replicate n none)

/-- `Array.from({length: Math.min(concurrency, tasks.length)}, () => worker())`:
the number of workers spawned by `runWithConcurrency`. -/
def workersSpawned (concurrency n : Nat) : Nat := Nat.min concurrency n

/-! ## Detail phase: per-character retry loop (fetchCharacterDetail, lines 426-482)

One whole attempt of the body of `fetchCharacterDetail` (request,
continuation sub-loop, parse, validate) either produces a detail record or
throws; the oracle `attempts k` gives the outcome of attempt number `k`
(`none` = the attempt threw).  The JS loop is
`for (let retry = 0; retry <= MAX_CHARACTER_RETRIES; retry++)`:
on success return the detail, on failure continue while
`retry < MAX_CHARACTER_RETRIES`, and after the final failed attempt
return `null`. -/

def retryFetch (attempts : Nat → Option D) : Nat → Nat → Option D
  | _, 0 => none
  | retry, remaining + 1 =>
    match attempts retry with
    | some d => some d
    | none => retryFetch attempts (retry + 1) remaining

def fetchCharacterDetail (attempts : Nat → Option D) (maxRetries : Nat) : Option D :=
  retryFetch attempts 0 (maxRetries + 1)

/-! ## Detail phase: assembly (analyzeBook, lines 609-619)

`const successfulCharacters = characterDetails.filter(c => c !== null);`
followed by a fatal error when no character survived. -/

def analyzeBookPhase2 (outcomes : List (Option D)) : Except String (List D) :=
  let successful := outcomes.filterMap id
  if successful.isEmpty then
    .error "Failed to generate details for any characters. Please try again."
  else
    .ok successful

/-! ## Extraction phase validation (validateExtractionResult, lines 359-373)

Raw parsed replies are modelled with `Option` fields: `none` is an absent
(or, for `characters`, non-array) field; a present-but-empty string is
`some ""`, which is falsy in JS, hence the `truthy` test below. -/

structure WorldEntry where
  name : String
  description : String
  keywords : List String
deriving DecidableEq, Repr

structure WorldInfo where
  setting : String
  locations : List WorldEntry
  factions : List WorldEntry
  items : List WorldEntry
  concepts : List WorldEntry
deriving DecidableEq, Repr

/-- The empty well-formed world structure: empty setting string, empty
locations, factions, items and concepts lists. -/
def emptyWorldInfo : WorldInfo := ⟨"", [], [], [], []⟩

structure RawCharacter where
  name : Option String
  role : Option String
  briefDescription : Option String
deriving DecidableEq, Repr

structure RawExtraction where
  bookTitle : Option String
  characters : Option (List RawCharacter)
  worldInfo : Option WorldInfo
deriving DecidableEq, Repr

structure Extraction where
  bookTitle : String
  characters : List RawCharacter
  worldInfo : WorldInfo
deriving DecidableEq, Repr

/-- JS truthiness of an optional string field: absent and empty are falsy. -/
def truthy : Option String → Bool
  | none => false
  | some s => !(s = "")

def validCharacter (c : RawCharacter) : Bool := truthy c.name && truthy c.role

def validateExtractionResult (r : RawExtraction) : Except String Extraction :=
  let bookTitle := if truthy r.bookTitle then r.bookTitle.getD "" else "Unknown Book"
  match r.characters with
  | none => .error "AI extraction response missing characters array"
  | some cs =>
    let kept := cs.filter validCharacter
    if kept.isEmpty then
      .error "AI extraction returned no valid characters (each needs name and role)"
    else
      .ok { bookTitle := bookTitle
            characters := kept
            worldInfo := r.worldInfo.getD emptyWorldInfo }

/-- Phase 1 of `analyzeBook` (lines 550-592): a reply that cannot be parsed
(`parsed = none`) or fails validation is rethrown from the surrounding
`catch` as a fresh error, aborting the run. -/
def extractionPhase (parsed : Option RawExtraction) : Except String Extraction :=
  match parsed with
  | none => .error "AI extraction failed: Failed to parse AI response after repair attempt"
  | some r =>
    match validateExtractionResult r with
    | .error e => .error ("AI extraction failed: " ++ e)
    | .ok ext => .ok ext

/-- The two-phase pipeline of `analyzeBook` after text preparation:
extraction (fatal on failure) followed by the per-character detail fetches
and the all-failed check.  `oracle c k` is the outcome of attempt `k` of
the detail call for roster entry `c`. -/
def analyzeBookModel (parsed : Option RawExtraction)
    (oracle : RawCharacter → Nat → Option D) (maxRetries : Nat) :
    Except String (String × List D × WorldInfo) :=
  match extractionPhase parsed with
  | .error e => .error e
  | .ok ext =>
    match analyzeBookPhase2 (ext.characters.map fun c => fetchCharacterDetail (oracle c) maxRetries) with
    | .error e => .error e
    | .ok chars => .ok (ext.bookTitle, chars, ext.worldInfo)

/-! ## Continuation controller (fetchCharacterDetail lines 446-464, analyzeBook lines 557-571)

Both phases run the same loop when the finish reason of a reply is "length":
`for (let attempt = 1; attempt <= MAX_CONTINUATION_ATTEMPTS; attempt++)`
issue one follow-up call, `break` if it returned empty content, append it
to the accumulated buffer, and return/`break` on the first successful
parse+validate of the buffer.  `cont k` is the content returned by the
`k`-th follow-up call, `validate` is the parse+validate step (`none` =
threw), `K` is the `MAX_CONTINUATION_ATTEMPTS` constant both phases
imported by both phases from the shared constants module. -/

structure ContOutcome (R : Type) where
  buffer : String
  result : Option R
  calls : Nat
deriving DecidableEq, Repr

def contLoopGo (cont : Nat → String) (validate : String → Option R) :
    Nat → String → Nat → ContOutcome R
  | _, buf, 0 => ⟨buf, none, 0⟩
  | attempt, buf, remaining + 1 =>
    let c := cont attempt
    if c = "" then ⟨buf, none, 1⟩
    else
      let buf2 := buf ++ c
      match validate buf2 with
      | some r => ⟨buf2, some r, 1⟩
      | none =>
        let o := contLoopGo cont validate (attempt + 1) buf2 remaining
        ⟨o.buffer, o.result, o.calls + 1⟩

def continuationLoop (K : Nat) (cont : Nat → String) (validate : String → Option R)
    (content : String) : ContOutcome R :=
  contLoopGo cont validate 1 content K

/-- The continuation loop as run by Phase 1 (extraction) of `analyzeBook`. -/
def extractionContinuation (K : Nat) (cont : Nat → String)
    (validate : String → Option R) (content : String) : ContOutcome R :=
  continuationLoop K cont validate content

/-- The continuation loop as run by `fetchCharacterDetail` (detail phase);
the source shares the loop shape and the bound `MAX_CONTINUATION_ATTEMPTS`
with the extraction phase. -/
def detailContinuation (K : Nat) (cont : Nat → String)
    (validate : String → Option R) (content : String) : ContOutcome R :=
  continuationLoop K cont validate content

/-- The accumulated buffer after follow-up calls `1..j` have been appended
to the original truncated content. -/
def accumBuf (cont : Nat → String) (content : String) : Nat → String
  | 0 => content
  | j + 1 => accumBuf cont content j ++ cont (j + 1)

/-! ## Chunker (chunkText lines 70-86, chunkByChapters lines 92-118)

Character-level model: JS strings become `List Char`. -/

/-- The two-newline paragraph separator the chunker re-inserts between
accumulated paragraphs (the loop appends paragraph then blank line). -/
def nlnl : List Char := ['\n', '\n']

/-- Whitespace as recognised by `String.prototype.trim` (restricted to the
ASCII whitespace actually occurring in chunked book text). -/
def isWsChar (c : Char) : Bool := c = ' ' || c = '\t' || c = '\n' || c = '\r'

/-- `s.trim()` -/
def jsTrim (s : List Char) : List Char :=
  ((s.dropWhile isWsChar).reverse.dropWhile isWsChar).reverse

/-- Scanner for `text.split(/\n\n+/)`: a maximal run of two or more
newlines separates paragraphs; `acc` holds the reversed current piece.
The fuel argument (any bound on the length of `l`) keeps the recursion
structural; each step consumes at least one character of `l`. -/
def splitParasAux : Nat → List Char → List Char → List (List Char)
  | 0, _, acc => [acc.reverse]
  | fuel + 1, l, acc =>
    match l with
    | [] => [acc.reverse]
    | c :: rest =>
      if c = '\n' ∧ rest.head? = some '\n' then
        acc.reverse :: splitParasAux fuel (rest.dropWhile fun x => x = '\n') []
      else
        splitParasAux fuel rest (c :: acc)

/-- `text.split(/\n\n+/)` -/
def splitParagraphs (s : List Char) : List (List Char) := splitParasAux s.length s []

/-- The paragraph-packing loop of `chunkText`: walk the paragraphs, append
to `current` while `(current + paragraph).length < charsPerChunk`, else
flush `current.trim()` (when non-empty) and restart from the paragraph. -/
def chunkParasAux (budget : Nat) :
    List (List Char) → List Char → List (List Char) → List (List Char)
  | [], current, chunks =>
    if current.isEmpty then chunks else chunks ++ [jsTrim current]
  | p :: ps, current, chunks =>
    if current.length + p.length < budget then
      chunkParasAux budget ps (current ++ p ++ nlnl) chunks
    else
      chunkParasAux budget ps (p ++ nlnl)
        (if current.isEmpty then chunks else chunks ++ [jsTrim current])

/-- `chunkText(text, maxTokens)` with `charsPerChunk = maxTokens * CHARS_PER_TOKEN`. -/
def chunkText (text : List Char) (maxTokens : Nat) : List (List Char) :=
  chunkParasAux (maxTokens * CHARS_PER_TOKEN) (splitParagraphs text) [] []

structure Chapter where
  title : Option (List Char)
  text : List Char

/-- `chapter.title ? `--- ${chapter.title} ---\n\n${chapter.text}` : chapter.text`
(an empty title is falsy in JS). -/
def chapterText (ch : Chapter) : List Char :=
  match ch.title with
  | none => ch.text
  | some t =>
    if t.isEmpty then ch.text
    else String.toList "--- " ++ t ++ String.toList " ---" ++ nlnl ++ ch.text

/-- The chapter-packing loop of `chunkByChapters`: an oversized chapter is
flushed standalone through `chunkText`; otherwise chapters accumulate into
`current` while they fit the chunk budget. -/
def chunkByChaptersAux (maxTokens : Nat) :
    List Chapter → List Char → List (List Char) → List (List Char)
  | [], current, chunks =>
    if current.isEmpty then chunks else chunks ++ [jsTrim current]
  | ch :: rest, current, chunks =>
    let budget := maxTokens * CHARS_PER_TOKEN
    let ctext := chapterText ch
    if budget < ctext.length then
      chunkByChaptersAux maxTokens rest []
        ((if current.isEmpty then chunks else chunks ++ [jsTrim current])
          ++ chunkText ctext maxTokens)
    else if !current.isEmpty ∧ budget < current.length + ctext.length then
      chunkByChaptersAux maxTokens rest (ctext ++ nlnl) (chunks ++ [jsTrim current])
    else
      chunkByChaptersAux maxTokens rest (current ++ ctext ++ nlnl) chunks

/-- `chunkByChapters(chapters, maxTokens)` -/
def chunkByChapters (chapters : List Chapter) (maxTokens : Nat) : List (List Char) :=
  chunkByChaptersAux maxTokens chapters [] []

/-- The summary join and the paragraph accumulation both join
with fixed separators; `joinSep` is joining with the paragraph separator. -/
def joinSep : List (List Char) → List Char
  | [] => []
  | [p] => p
  | p :: q :: ps => p ++ nlnl ++ joinSep (q :: ps)

/-! ## Reduction engine (chunkAndSummarize, lines 155-188) -/

/-- `const maxReduceAttempts = 3;` -/
def maxReduceAttempts : Nat := 3

/-- The whole-text re-summarization loop
`while (combined.length > maxCharsForInput && reduceAttempt < maxReduceAttempts)`;
returns the final text together with the number of re-summarization passes
performed. -/
def reduceLoop (summarize : List Char → List Char) (maxChars : Nat) :
    Nat → List Char → List Char × Nat
  | 0, combined => (combined, 0)
  | fuel + 1, combined =>
    if maxChars < combined.length then
      let r := reduceLoop summarize maxChars fuel (summarize combined)
      (r.1, r.2 + 1)
    else (combined, 0)

/-- `s.slice(0, stop)` of a JS string: a negative `stop` counts from the
end of the string. -/
def jsSliceUpTo (s : List Char) (stop : Int) : List Char :=
  let len : Int := s.length
  let e := if stop < 0 then max (len + stop) 0 else min stop len
  s.take e.toNat

/-- Lines 174-187 of `chunkAndSummarize`: the bounded whole-text
re-summarization loop followed by the hard truncation
`combined.slice(0, maxCharsForInput - 1)` plus the ellipsis marker when
still oversized. -/
def reduceAndTruncate (summarize : List Char → List Char) (maxCharsForInput : Nat)
    (combined : List Char) : List Char × Nat :=
  let r := reduceLoop summarize maxCharsForInput maxReduceAttempts combined
  if maxCharsForInput < r.1.length then
    (jsSliceUpTo r.1 ((maxCharsForInput : Int) - 1) ++ ['…'], r.2)
  else r

/-- `chunkAndSummarize(bookText, chapters, maxCharsForInput, safeContextSize, ...)`
with the per-chunk summarization oracle `summarize`; returns the reduced
text and the number of whole-text re-summarization passes.
`chunkTokenSize = Math.floor(safeContextSize * CHUNK_FILL_RATIO)` with
`CHUNK_FILL_RATIO = 0.8`, modelled as the exact rational `4/5`. -/
def chunkAndSummarize (bookText : List Char) (chapters : Option (List Chapter))
    (maxCharsForInput safeContextSize : Nat)
    (summarize : List Char → List Char) : List Char × Nat :=
  let chunkTokenSize := safeContextSize * 4 / 5
  let chunks :=
    match chapters with
    | some chs =>
      if 0 < chs.length then chunkByChapters chs chunkTokenSize
      else chunkText bookText chunkTokenSize
    | none => chunkText bookText chunkTokenSize
  let summaries := chunks.map summarize
  let combined := List.intercalate (String.toList "\n\n---\n\n") summaries
  reduceAndTruncate summarize maxCharsForInput combined

/-- `analyzeBook` lines 527-533: the reduction engine runs exactly when
`bookText.length > maxCharsForInput`. -/
def prepareTextToAnalyze (bookText : List Char) (chapters : Option (List Chapter))
    (maxCharsForInput safeContextSize : Nat)
    (summarize : List Char → List Char) : List Char :=
  if maxCharsForInput < bookText.length then
    (chunkAndSummarize bookText chapters maxCharsForInput safeContextSize summarize).1
  else bookText

/-! ## JSON values and `JSON.parse` (ECMA-404 grammar)

`parseAIResponse` and `repairTruncatedJSON` live and die by `JSON.parse`;
this is a direct executable model of it over `List Char`.  Numbers keep
their source lexeme (the pipeline never computes with them). -/

inductive Json where
  | null : Json
  | bool (b : Bool) : Json
  | num (lexeme : List Char) : Json
  | str (s : List Char) : Json
  | arr (elems : List Json) : Json
  | obj (members : List (List Char × Json)) : Json

/-- JSON insignificant whitespace: space, tab, line feed, carriage return. -/
def skipWs (s : List Char) : List Char :=
  s.dropWhile fun c => c = ' ' || c = '\t' || c = '\n' || c = '\r'

def isJsonDigit (c : Char) : Bool := '0' ≤ c ∧ c ≤ '9'

def isHexDigit (c : Char) : Bool :=
  ('0' ≤ c ∧ c ≤ '9') || ('a' ≤ c ∧ c ≤ 'f') || ('A' ≤ c ∧ c ≤ 'F')

def hexVal (c : Char) : Nat :=
  if '0' ≤ c ∧ c ≤ '9' then c.toNat - '0'.toNat
  else if 'a' ≤ c ∧ c ≤ 'f' then c.toNat - 'a'.toNat + 10
  else if 'A' ≤ c ∧ c ≤ 'F' then c.toNat - 'A'.toNat + 10
  else 0

/-- Body of a JSON string literal after the opening quote: unescaped
content plus the rest of the input after the closing quote. -/
def parseStringBody : List Char → Option (List Char × List Char)
  | [] => none
  | '"' :: rest => some ([], rest)
  | '\\' :: 'u' :: h1 :: h2 :: h3 :: h4 :: rest =>
    if isHexDigit h1 && isHexDigit h2 && isHexDigit h3 && isHexDigit h4 then
      (parseStringBody rest).map fun p =>
        (Char.ofNat (((hexVal h1 * 16 + hexVal h2) * 16 + hexVal h3) * 16 + hexVal h4) :: p.1, p.2)
    else none
  | '\\' :: e :: rest =>
    let dec : Option Char :=
      if e = '"' then some '"'
      else if e = '\\' then some '\\'
      else if e = '/' then some '/'
      else if e = 'b' then some (Char.ofNat 8)
      else if e = 'f' then some (Char.ofNat 12)
      else if e = 'n' then some '\n'
      else if e = 'r' then some '\r'
      else if e = 't' then some '\t'
      else none
    match dec with
    | none => none
    | some d => (parseStringBody rest).map fun p => (d :: p.1, p.2)
  | c :: rest =>
    if c.toNat < 32 then none
    else (parseStringBody rest).map fun p => (c :: p.1, p.2)

/-- JSON number: `-? (0 | [1-9][0-9]*) (. [0-9]+)? ([eE][+-]?[0-9]+)?`;
returns the consumed lexeme and the rest. -/
def parseNumberLexeme (s : List Char) : Option (List Char × List Char) :=
  let (sign, s1) := match s with
    | '-' :: r => (['-'], r)
    | _ => (([] : List Char), s)
  let intPart : Option (List Char × List Char) :=
    match s1 with
    | '0' :: r => some (['0'], r)
    | c :: r =>
      if isJsonDigit c then
        some (c :: r.takeWhile isJsonDigit, r.dropWhile isJsonDigit)
      else none
    | [] => none
  match intPart with
  | none => none
  | some (ip, s2) =>
    let (fp, s3) : List Char × List Char :=
      match s2 with
      | '.' :: r =>
        if (r.takeWhile isJsonDigit).isEmpty then ([], s2)
        else ('.' :: r.takeWhile isJsonDigit, r.dropWhile isJsonDigit)
      | _ => ([], s2)
    let fracOk : Bool := match s2 with
      | '.' :: r => !(r.takeWhile isJsonDigit).isEmpty
      | _ => true
    if !fracOk then none
    else
      let (ep, s4) : List Char × List Char :=
        match s3 with
        | e :: r =>
          if e = 'e' ∨ e = 'E' then
            let (sg, r2) : List Char × List Char :=
              match r with
              | '+' :: r3 => (['+'], r3)
              | '-' :: r3 => (['-'], r3)
              | _ => ([], r)
            if (r2.takeWhile isJsonDigit).isEmpty then ([], s3)
            else (e :: sg ++ r2.takeWhile isJsonDigit, r2.dropWhile isJsonDigit)
          else ([], s3)
        | [] => ([], s3)
      let expOk : Bool :=
        match s3 with
        | e :: r =>
          if e = 'e' ∨ e = 'E' then
            let r2 : List Char := match r with
              | '+' :: r3 => r3
              | '-' :: r3 => r3
              | _ => r
            !(r2.takeWhile isJsonDigit).isEmpty
          else true
        | [] => true
      if !expOk then none
      else some (sign ++ ip ++ fp ++ ep, s4)

mutual

def parseValue : Nat → List Char → Option (Json × List Char)
  | 0, _ => none
  | fuel + 1, s =>
    match skipWs s with
    | 'n' :: 'u' :: 'l' :: 'l' :: rest => some (.null, rest)
    | 't' :: 'r' :: 'u' :: 'e' :: rest => some (.bool true, rest)
    | 'f' :: 'a' :: 'l' :: 's' :: 'e' :: rest => some (.bool false, rest)
    | '"' :: rest => (parseStringBody rest).map fun p => (.str p.1, p.2)
    | '[' :: rest =>
      (match skipWs rest with
       | ']' :: r2 => some (.arr [], r2)
       | r1 => (parseElems fuel r1).map fun p => (.arr p.1, p.2))
    | '{' :: rest =>
      (match skipWs rest with
       | '}' :: r2 => some (.obj [], r2)
       | r1 => (parseMembers fuel r1).map fun p => (.obj p.1, p.2))
    | s1 => (parseNumberLexeme s1).map fun p => (.num p.1, p.2)

def parseElems : Nat → List Char → Option (List Json × List Char)
  | 0, _ => none
  | fuel + 1, s =>
    match parseValue fuel s with
    | none => none
    | some (v, r) =>
      match skipWs r with
      | ',' :: r2 =>
        (parseElems fuel r2).map fun p => (v :: p.1, p.2)
      | ']' :: r2 => some ([v], r2)
      | _ => none

def parseMembers : Nat → List Char → Option (List (List Char × Json) × List Char)
  | 0, _ => none
  | fuel + 1, s =>
    match skipWs s with
    | '"' :: rest =>
      match parseStringBody rest with
      | none => none
      | some (key, r) =>
        match skipWs r with
        | ':' :: r2 =>
          match parseValue fuel r2 with
          | none => none
          | some (v, r3) =>
            match skipWs r3 with
            | ',' :: r4 => (parseMembers fuel r4).map fun p => ((key, v) :: p.1, p.2)
            | '}' :: r4 => some ([(key, v)], r4)
            | _ => none
        | _ => none
    | _ => none

end

/-- `JSON.parse(s)`: parse one value and require only whitespace to remain. -/
def jsonParse (s : List Char) : Option Json :=
  match parseValue (s.length + 1) s with
  | some (v, rest) => if (skipWs rest).isEmpty then some v else none
  | none => none

/-! ## Response repairer (repairTruncatedJSON lines 285-333, parseAIResponse lines 245-280) -/

/-- `s.replace` of the regex comma-then-trailing-whitespace by the empty
string: drop a trailing comma (and the whitespace
after it) when the string ends in comma-then-whitespace. -/
def stripTrailingComma (s : List Char) : List Char :=
  match s.reverse.dropWhile isWsChar with
  | ',' :: r2 => r2.reverse
  | _ => s

/-- First scan of `repairTruncatedJSON` (lines 290-299): track string
state (a backslash inside a string skips the next character) and record
the index of the last `}`, `]` or closing `"` seen outside a string.
Returns `(inString, lastGoodPos)` at end of input. -/
def repairScan : List Char → Bool → Nat → Nat → Bool × Nat
  | [], inString, _, lastGood => (inString, lastGood)
  | c :: rest, inString, i, lastGood =>
    if c = '\\' ∧ inString then
      match rest with
      | [] => (inString, lastGood)
      | _ :: rest2 => repairScan rest2 inString (i + 2) lastGood
    else
      let inString2 := if c = '"' then !inString else inString
      let lastGood2 :=
        if !inString2 && (c = '}' || c = ']' || c = '"') then i else lastGood
      repairScan rest inString2 (i + 1) lastGood2

/-- Lines 301-304: when the scan ends inside an unterminated string, cut
at `trimmed.substring(0, lastGoodPos + 1)`. -/
def cutUnterminatedString (s : List Char) : List Char :=
  let r := repairScan s false 0 0
  if r.1 then s.take (r.2 + 1) else s

/-- The candidate after the trimming steps of `repairTruncatedJSON`
(trailing-comma strip, unterminated-string cut, trailing-comma strip). -/
def repairTrimmed (json : List Char) : List Char :=
  stripTrailingComma (cutUnterminatedString (stripTrailingComma json))

/-- Second scan (lines 310-319): the stack of still-open `{`/`[` brackets,
most recent first, ignoring bracket characters inside strings
(a pop on an empty stack is a no-op, as `Array.prototype.pop`). -/
def openBrackets : List Char → Bool → List Char → List Char
  | [], _, stack => stack
  | c :: rest, inString, stack =>
    if c = '\\' ∧ inString then
      match rest with
      | [] => stack
      | _ :: rest2 => openBrackets rest2 inString stack
    else if c = '"' then openBrackets rest (!inString) stack
    else if inString then openBrackets rest inString stack
    else if c = '{' ∨ c = '[' then openBrackets rest inString (c :: stack)
    else if c = '}' ∨ c = ']' then openBrackets rest inString stack.tail
    else openBrackets rest inString stack

/-- Lines 321-332: close the still-open brackets in reverse (LIFO) order
of their opening; return `null` when there is nothing to append. -/
def repairTruncatedJSON (json : List Char) : Option (List Char) :=
  let trimmed := repairTrimmed json
  let suffix := (openBrackets trimmed false []).map fun c => if c = '{' then '}' else ']'
  if suffix.isEmpty then none else some (trimmed ++ suffix)

/-- `cleaned.replace` of a leading fence by the empty string: strip a leading ```` ```json ````
fence marker (case-insensitive) and the whitespace after it. -/
def stripLeadingFence (s : List Char) : List Char :=
  match s with
  | c1 :: c2 :: c3 :: c4 :: c5 :: c6 :: c7 :: rest =>
    if [c1, c2, c3].all (· = '`') && (c4.toLower = 'j' && c5.toLower = 's'
        && c6.toLower = 'o' && c7.toLower = 'n') then
      rest.dropWhile isWsChar
    else s
  | _ => s

/-- `cleaned.replace` of a trailing fence by the empty string: strip a trailing ```` ``` ```` fence
marker and the whitespace before it. -/
def stripTrailingFence (s : List Char) : List Char :=
  match s.reverse with
  | c1 :: c2 :: c3 :: rest =>
    if [c1, c2, c3].all (· = '`') then (rest.dropWhile isWsChar).reverse else s
  | _ => s

/-- Lines 262-266: keep the span between the first `{` and the last `}`
when both exist in that order, else leave the candidate unchanged. -/
def extractOuterObject (s : List Char) : List Char :=
  match s.findIdx? (· = '{'), (s.length - 1 - s.reverse.findIdx (· = '}')) with
  | some first, last =>
    if ('}' ∈ s) ∧ first < last then (s.take (last + 1)).drop first else s
  | none, _ => s

/-- Which step of `parseAIResponse` produced the result: the direct parse,
the cleaned candidate (fence stripping + outermost-object extraction), or
the truncation repair. -/
inductive RepairStep where
  | direct : RepairStep
  | cleaned : RepairStep
  | repaired : RepairStep
deriving DecidableEq, Repr

/-- `parseAIResponse(content)` (lines 245-280): try the parse as-is; on
failure trim, strip fences, extract the outermost object span and re-parse;
on failure attempt truncation repair and re-parse; otherwise throw
(modelled as `none`, the thrown message preserving both parse errors). -/
def parseAIResponse (content : List Char) : Option (Json × RepairStep) :=
  match jsonParse content with
  | some v => some (v, .direct)
  | none =>
    let cleaned := extractOuterObject (stripTrailingFence (stripLeadingFence (jsTrim content)))
    match jsonParse cleaned with
    | some v => some (v, .cleaned)
    | none =>
      match repairTruncatedJSON cleaned with
      | some rep =>
        match jsonParse rep with
        | some v => some (v, .repaired)
        | none => none
      | none => none

/-! ## Chunker: greedy-packing reference model

`packParas`/`packChapters` are group-level restatements of the two
accumulator loops: instead of the string `current` they carry the list `g`
of paragraphs (resp. chapter texts) currently accumulated, `current` being
recoverable as `currOf g`.  The correspondence with `chunkParasAux` /
`chunkByChaptersAux` is proved below. -/

/-- The accumulator string corresponding to a packed group `g`:
each element followed by the blank-line separator. -/
def currOf (g : List (List Char)) : List Char := (g.map (· ++ nlnl)).flatten

def packParas (budget : Nat) : List (List Char) → List (List Char) → List (List (List Char))
  | [], g => if g.isEmpty then [] else [g]
  | p :: ps, g =>
    if (currOf g).length + p.length < budget then
      packParas budget ps (g ++ [p])
    else
      (if g.isEmpty then [] else [g]) ++ packParas budget ps [p]

def packChapters (budget : Nat) : List (List Char) → List (List Char) → List (List (List Char))
  | [], g => if g.isEmpty then [] else [g]
  | t :: ts, g =>
    if !g.isEmpty ∧ budget < (currOf g).length + t.length then
      [g] ++ packChapters budget ts [t]
    else
      packChapters budget ts (g ++ [t])

/-- No two consecutive newlines: the piece contains no `\n\n+` separator. -/
def noDoubleNl : List Char → Bool
  | a :: b :: t => !(a == '\n' && b == '\n') && noDoubleNl (b :: t)
  | _ => true

def headOkay (p : List Char) : Bool :=
  match p.head? with
  | some c => !isWsChar c
  | none => true

def lastOkay (p : List Char) : Bool :=
  match p.getLast? with
  | some c => !isWsChar c
  | none => true

/-- A "clean" paragraph/chapter text: non-empty, contains no blank-line
separator, and neither starts nor ends with whitespace (so splitting and
trimming are exact inverses of joining). -/
def cleanPara (p : List Char) : Bool :=
  !p.isEmpty && noDoubleNl p && headOkay p && lastOkay p

/-! # Theorems -/

/-! ## Budget calculator -/

/-- **C8**: `maxCharsForInput` is derived as
`floor(contextLengthTokens × inputRatio) × charsPerToken`, is monotone in
`contextLengthTokens`, and for every positive `contextLengthTokens` the
derived `safeInputTokens` is strictly smaller than it. -/
theorem budget_monotone_and_safe (a b n : Nat) (hab : a ≤ b) (hn : 0 < n) :
    maxCharsForInputOf a = safeContextSize a * CHARS_PER_TOKEN ∧
    maxCharsForInputOf a ≤ maxCharsForInputOf b ∧
    safeContextSize n < n := by
  refine ⟨rfl, ?_, ?_⟩
  · exact Nat.mul_le_mul_right _ (Nat.div_le_div_right hab)
  · exact Nat.div_lt_self hn (by norm_num)

theorem budget_monotone_and_safe_witness :
    (2 ≤ 5 ∧ 0 < 7) ∧
    (maxCharsForInputOf 2 = safeContextSize 2 * CHARS_PER_TOKEN ∧
     maxCharsForInputOf 2 ≤ maxCharsForInputOf 5 ∧
     safeContextSize 7 < 7) :=
  ⟨by decide, budget_monotone_and_safe 2 5 7 (by decide) (by decide)⟩

/-! ## Detail phase: retry exhaustion and null-dropping -/

theorem retryFetch_none (attempts : Nat → Option D) :
    ∀ remaining start, (∀ i, start ≤ i → i < start + remaining → attempts i = none) →
    retryFetch attempts start remaining = none := by
  intro remaining
  induction remaining with
  | zero => intro start _; rfl
  | succ r ih =>
    intro start h
    have h0 : attempts start = none := h start le_rfl (by omega)
    simp only [retryFetch, h0]
    exact ih (start + 1) fun i hi1 hi2 => h i (by omega) (by omega)

/-- **C1**: a detail item whose every attempt up to the retry bound fails
resolves to the `null` sentinel; the `characters` list `analyzeBook`
assembles is exactly the non-null outcomes (so it contains no null entry),
its length is at most the roster size, and when every item resolves to
null the run errors instead of returning an empty result. -/
theorem detail_phase_isolation {D : Type} (roster : List RawCharacter)
    (oracle : RawCharacter → Nat → Option D) (maxRetries : Nat) :
    (∀ c, (∀ i, i ≤ maxRetries → oracle c i = none) →
        fetchCharacterDetail (oracle c) maxRetries = none) ∧
    (∀ cs, analyzeBookPhase2 (roster.map fun c => fetchCharacterDetail (oracle c) maxRetries) = .ok cs →
        cs = (roster.map fun c => fetchCharacterDetail (oracle c) maxRetries).filterMap id ∧
        cs.length ≤ roster.length ∧ cs ≠ []) ∧
    ((∀ c ∈ roster, fetchCharacterDetail (oracle c) maxRetries = none) →
        ∃ e, analyzeBookPhase2 (roster.map fun c => fetchCharacterDetail (oracle c) maxRetries) = .error e) := by
  refine ⟨?_, ?_, ?_⟩
  · intro c hc
    exact retryFetch_none (oracle c) (maxRetries + 1) 0 fun i _ hi2 => hc i (by omega)
  · intro cs hok
    unfold analyzeBookPhase2 at hok
    set outcomes := roster.map fun c => fetchCharacterDetail (oracle c) maxRetries with houtc
    by_cases hemp : (outcomes.filterMap id).isEmpty
    · simp [hemp] at hok
    · simp only [hemp, Bool.false_eq_true, if_false, Except.ok.injEq] at hok
      subst hok
      refine ⟨rfl, ?_, ?_⟩
      · calc (outcomes.filterMap id).length ≤ outcomes.length := List.length_filterMap_le _ _
          _ = roster.length := by rw [houtc, List.length_map]
      · simpa [List.isEmpty_iff] using hemp
  · intro hall
    unfold analyzeBookPhase2
    have : (roster.map fun c => fetchCharacterDetail (oracle c) maxRetries).filterMap id = [] := by
      rw [List.filterMap_eq_nil_iff]
      intro a ha
      rcases List.mem_map.mp ha with ⟨c, hc, rfl⟩
      simp [hall c hc]
    simp [this]

theorem detail_phase_isolation_witness :
    ((∀ i, i ≤ 1 → (fun _ : Nat => (none : Option Nat)) i = none) ∧
      (∀ c ∈ ([] : List RawCharacter),
        fetchCharacterDetail ((fun _ _ => none : RawCharacter → Nat → Option Nat) c) 1 = none)) ∧
    fetchCharacterDetail (fun _ : Nat => (none : Option Nat)) 1 = none ∧
    (∃ e, analyzeBookPhase2 (([] : List RawCharacter).map
        fun c => fetchCharacterDetail ((fun _ _ => none : RawCharacter → Nat → Option Nat) c) 1) = .error e) := by
  refine ⟨⟨fun i _ => rfl, fun c hc => absurd hc (List.not_mem_nil c)⟩, ?_, ?_⟩
  · exact (detail_phase_isolation [] (fun _ _ => none) 1).1 ⟨"", none, none⟩ fun i _ => rfl
  · exact (detail_phase_isolation ([] : List RawCharacter) (fun _ _ => (none : Option Nat)) 1).2.2
      fun c hc => absurd hc (List.not_mem_nil c)

/-! ## Extraction phase validation -/

/-- **C3**: extraction validation drops roster entries missing a name or a
role, errors fatally (aborting `analyzeBookModel`) when no valid entry
remains or the reply cannot be parsed, defaults `worldInfo` to the empty
well-formed structure when absent and `bookTitle` to `"Unknown Book"` when
absent. -/
theorem extraction_validation_spec {D : Type} :
    emptyWorldInfo = ⟨"", [], [], [], []⟩ ∧
    (∀ r : RawExtraction, ∀ cs ext, r.characters = some cs →
        validateExtractionResult r = .ok ext →
        ext.characters = cs.filter validCharacter ∧
        (r.worldInfo = none → ext.worldInfo = emptyWorldInfo) ∧
        (r.bookTitle = none → ext.bookTitle = "Unknown Book")) ∧
    (∀ r : RawExtraction, ∀ cs, r.characters = some cs →
        cs.filter validCharacter = [] → ∃ e, validateExtractionResult r = .error e) ∧
    (∀ r : RawExtraction, r.characters = none → ∃ e, validateExtractionResult r = .error e) ∧
    (∀ parsed e (oracle : RawCharacter → Nat → Option D) maxRetries,
        extractionPhase parsed = .error e →
        analyzeBookModel parsed oracle maxRetries = .error e) ∧
    (∃ e, extractionPhase none = .error e) := by
  refine ⟨rfl, ?_, ?_, ?_, ?_, ?_⟩
  · intro r cs ext hcs hok
    unfold validateExtractionResult at hok
    rw [hcs] at hok
    by_cases hemp : (cs.filter validCharacter).isEmpty
    · simp [hemp] at hok
    · simp only [hemp, Bool.false_eq_true, if_false, Except.ok.injEq] at hok
      subst hok
      refine ⟨rfl, ?_, ?_⟩
      · intro hw; simp [hw]
      · intro hb; simp [hb, truthy]
  · intro r cs hcs hfil
    unfold validateExtractionResult
    rw [hcs]
    simp [hfil]
  · intro r hcs
    unfold validateExtractionResult
    rw [hcs]
    exact ⟨_, rfl⟩
  · intro parsed e oracle maxRetries herr
    unfold analyzeBookModel
    rw [herr]
  · exact ⟨_, rfl⟩

theorem extraction_validation_spec_witness :
    ((⟨some "T", some [⟨some "n", some "r", none⟩], none⟩ : RawExtraction).characters
        = some [⟨some "n", some "r", none⟩] ∧
      validateExtractionResult ⟨some "T", some [⟨some "n", some "r", none⟩], none⟩
        = .ok ⟨"T", [⟨some "n", some "r", none⟩], emptyWorldInfo⟩) ∧
    (⟨some "T", some [⟨some "n", some "r", none⟩], none⟩ : RawExtraction).worldInfo = none ∧
    ([⟨some "n", some "r", none⟩] : List RawCharacter).filter validCharacter
        = [⟨some "n", some "r", none⟩] ∧
    (⟨"T", [⟨some "n", some "r", none⟩], emptyWorldInfo⟩ : Extraction).worldInfo = emptyWorldInfo := by
  have h := (extraction_validation_spec (D := Nat)).2.1
    ⟨some "T", some [⟨some "n", some "r", none⟩], none⟩
    [⟨some "n", some "r", none⟩]
    ⟨"T", [⟨some "n", some "r", none⟩], emptyWorldInfo⟩ rfl rfl
  exact ⟨⟨rfl, rfl⟩, rfl, (h.1).symm ▸ rfl, h.2.1 rfl⟩

/-! ## Response repairer: identity on clean replies -/

/-- **C9**: a reply that already parses as JSON is returned as its direct
parse, and none of the repair steps (fence stripping, outermost-object
extraction, truncation repair) runs. -/
theorem repairer_identity_on_clean_replies (content : List Char) (v : Json)
    (h : jsonParse content = some v) :
    parseAIResponse content = some (v, RepairStep.direct) := by
  unfold parseAIResponse
  rw [h]

theorem repairer_identity_on_clean_replies_witness :
    jsonParse (String.toList "\x7b\x7d") = some (Json.obj []) ∧
    parseAIResponse (String.toList "\x7b\x7d") = some (Json.obj [], RepairStep.direct) :=
  ⟨rfl, repairer_identity_on_clean_replies (String.toList "\x7b\x7d") (Json.obj []) rfl⟩

/-! ## Concurrency limiter: order independence -/

theorem foldl_set_getElem? (f : Nat → α) (order : List Nat) :
    ∀ (l : List (Option α)) (j : Nat),
      (order.foldl (fun acc i => acc.set i (some (f i))) l)[j]? =
        if j ∈ order ∧ j < l.length then some (some (f j)) else l[j]? := by
  induction order with
  | nil => intro l j; simp
  | cons i rest ih =>
    intro l j
    rw [List.foldl_cons, ih]
    by_cases hlen : j < l.length
    · by_cases hjr : j ∈ rest
      · simp [hjr, hlen, List.length_set]
      · by_cases hji : j = i
        · subst hji
          simp [hjr, hlen, List.length_set, List.getElem?_set]
        · simp [hjr, hlen, List.length_set, List.getElem?_set, Ne.symm hji,
            List.mem_cons, hji]
    · have hset : ¬ j < (l.set i (some (f i))).length := by
        simpa [List.length_set] using hlen
      have : (l.set i (some (f i)))[j]? = l[j]? := by
        rcases Nat.decEq i j with h | h
        · simp [List.getElem?_set, h]
        · subst h
          simp [List.getElem?_set, List.getElem?_eq_none (Nat.le_of_not_lt hlen),
            Nat.not_lt.mp hlen]
      simp [hlen, hset, this]

/-- **C2**: for every completed execution of `runWithConcurrency` (every
order in which the task writes can complete), the result buffer holds each
result of each task at the own index of that task — input order, not completion
order — and the worker pool has exactly `min(concurrency, tasks.length)`
workers, never more workers than tasks. -/
theorem run_with_concurrency_ordered (f : Nat → α) (n concurrency : Nat) (order : List Nat)
    (hperm : order.Perm (List.range n)) :
    runWithConcurrency f n order = (List.range n).map (fun i => some (f i)) ∧
    workersSpawned concurrency n = Nat.min concurrency n ∧
    workersSpawned concurrency n ≤ n ∧
    workersSpawned concurrency n ≤ concurrency := by
  refine ⟨?_, rfl, Nat.min_le_right _ _, Nat.min_le_left _ _⟩
  apply List.ext_getElem?
  intro j
  have hmem : j ∈ order ↔ j < n := by
    rw [hperm.mem_iff, List.mem_range]
  unfold runWithConcurrency
  rw [foldl_set_getElem?]
  by_cases hj : j < n
  · simp [hmem, hj, List.getElem?_range hj]
  · have h1 : ((List.range n).map fun i => some (f i))[j]? = none :=
      List.getElem?_eq_none (by simpa using Nat.le_of_not_lt hj)
    simp [hmem, hj, h1, List.getElem?_eq_none, Nat.le_of_not_lt hj]

theorem run_with_concurrency_ordered_witness :
    ([2, 0, 1].Perm (List.range 3)) ∧
    (runWithConcurrency (fun i => i * 10) 3 [2, 0, 1]
        = (List.range 3).map (fun i => some (i * 10)) ∧
      workersSpawned 2 3 = Nat.min 2 3 ∧
      workersSpawned 2 3 ≤ 3 ∧
      workersSpawned 2 3 ≤ 2) :=
  ⟨by decide, run_with_concurrency_ordered (fun i => i * 10) 3 2 [2, 0, 1] (by decide)⟩

/-! ## Continuation controller -/

theorem contLoopGo_calls_le (cont : Nat → String) (validate : String → Option R) :
    ∀ remaining attempt buf, (contLoopGo cont validate attempt buf remaining).calls ≤ remaining := by
  intro remaining
  induction remaining with
  | zero => intro a b; simp [contLoopGo]
  | succ r ih =>
    intro a b
    simp only [contLoopGo]
    by_cases hc : cont a = ""
    · simp [hc]
    · simp only [hc, if_false]
      cases hv : validate (b ++ cont a) with
      | some x => simp [hv]
      | none => simpa [hv] using Nat.succ_le_succ (ih (a + 1) (b ++ cont a))

theorem contLoopGo_shift (cont : Nat → String) (validate : String → Option R) :
    ∀ remaining attempt buf,
      contLoopGo cont validate (attempt + 1) buf remaining =
        contLoopGo (fun i => cont (i + 1)) validate attempt buf remaining := by
  intro remaining
  induction remaining with
  | zero => intro a b; rfl
  | succ r ih =>
    intro a b
    simp only [contLoopGo]
    by_cases hc : cont (a + 1) = ""
    · simp [hc]
    · simp only [hc, if_false]
      cases hv : validate (b ++ cont (a + 1)) with
      | some x => simp [hv]
      | none => simp [hv, ih (a + 1) (b ++ cont (a + 1))]

theorem accumBuf_shift (cont : Nat → String) (content : String) :
    ∀ j, accumBuf cont content (j + 1) =
      accumBuf (fun i => cont (i + 1)) (content ++ cont 1) j := by
  intro j
  induction j with
  | zero => rfl
  | succ j ih =>
    calc accumBuf cont content (j + 2)
        = accumBuf cont content (j + 1) ++ cont (j + 2) := rfl
      _ = accumBuf (fun i => cont (i + 1)) (content ++ cont 1) j ++ cont (j + 2) := by rw [ih]
      _ = accumBuf (fun i => cont (i + 1)) (content ++ cont 1) (j + 1) := rfl

theorem continuationLoop_first_success :
    ∀ (j K : Nat) (cont : Nat → String) (validate : String → Option R) (content : String) (r : R),
      1 ≤ j → j ≤ K →
      (∀ i, 1 ≤ i → i < j → cont i ≠ "" ∧ validate (accumBuf cont content i) = none) →
      cont j ≠ "" → validate (accumBuf cont content j) = some r →
      continuationLoop K cont validate content = ⟨accumBuf cont content j, some r, j⟩ := by
  intro j
  induction j with
  | zero => intro K cont validate content r h1; omega
  | succ j ih =>
    intro K cont validate content r _ hK hpre hj hv
    obtain ⟨K', rfl⟩ : ∃ K', K = K' + 1 := ⟨K - 1, by omega⟩
    by_cases hj0 : j = 0
    · subst hj0
      unfold continuationLoop
      simp only [contLoopGo, hj, if_false]
      have : (content ++ cont 1) = accumBuf cont content 1 := rfl
      rw [this, hv]
    · have hj1 : 1 ≤ j := by omega
      have h1 := hpre 1 le_rfl (by omega)
      unfold continuationLoop
      simp only [contLoopGo, h1.1, if_false]
      have hb1 : content ++ cont 1 = accumBuf cont content 1 := rfl
      rw [hb1, h1.2, contLoopGo_shift]
      have hb0 : accumBuf cont content 1 = content ++ cont 1 := rfl
      have happ := ih K' (fun i => cont (i + 1)) validate (accumBuf cont content 1) r hj1
        (by omega)
        (fun i hi1 hi2 => by
          have := hpre (i + 1) (by omega) (by omega)
          constructor
          · exact this.1
          · rw [hb0, ← accumBuf_shift]
            exact this.2)
        hj
        (by rw [hb0, ← accumBuf_shift]; exact hv)
      unfold continuationLoop at happ
      rw [happ, hb0, ← accumBuf_shift]

theorem continuationLoop_empty_exit :
    ∀ (j K : Nat) (cont : Nat → String) (validate : String → Option R) (content : String),
      1 ≤ j → j ≤ K →
      (∀ i, 1 ≤ i → i < j → cont i ≠ "" ∧ validate (accumBuf cont content i) = none) →
      cont j = "" →
      continuationLoop K cont validate content = ⟨accumBuf cont content (j - 1), none, j⟩ := by
  intro j
  induction j with
  | zero => intro K cont validate content h1; omega
  | succ j ih =>
    intro K cont validate content _ hK hpre hj
    obtain ⟨K', rfl⟩ : ∃ K', K = K' + 1 := ⟨K - 1, by omega⟩
    by_cases hj0 : j = 0
    · subst hj0
      unfold continuationLoop
      simp only [contLoopGo, hj, if_true]
      rfl
    · have hj1 : 1 ≤ j := by omega
      have h1 := hpre 1 le_rfl (by omega)
      unfold continuationLoop
      simp only [contLoopGo, h1.1, if_false]
      have hb1 : content ++ cont 1 = accumBuf cont content 1 := rfl
      rw [hb1, h1.2, contLoopGo_shift]
      have hb0 : accumBuf cont content 1 = content ++ cont 1 := rfl
      have happ := ih K' (fun i => cont (i + 1)) validate (accumBuf cont content 1) hj1
        (by omega)
        (fun i hi1 hi2 => by
          have := hpre (i + 1) (by omega) (by omega)
          exact ⟨this.1, by rw [hb0, ← accumBuf_shift]; exact this.2⟩)
        hj
      unfold continuationLoop at happ
      rw [happ]
      have hrw : accumBuf (fun i => cont (i + 1)) (accumBuf cont content 1) (j - 1)
          = accumBuf cont content j := by
        obtain ⟨j', rfl⟩ : ∃ j', j = j' + 1 := ⟨j - 1, by omega⟩
        rw [hb0, ← accumBuf_shift]
        rfl
      rw [hrw]
      simp

/-- **C7**: in both the extraction and the detail phase the continuation
loop issues at most `K = MAX_CONTINUATION_ATTEMPTS` follow-up calls — the
same shared constant, the two phase loops being the same loop — and exits
at the first successful validation of the accumulated buffer, on
exhaustion of the attempts, or immediately (counting that call) when a
continuation call returns empty content. -/
theorem continuation_loop_bounded_shared (K : Nat) (cont : Nat → String)
    (validate : String → Option R) (content : String) :
    (extractionContinuation K cont validate content).calls ≤ K ∧
    (detailContinuation K cont validate content).calls ≤ K ∧
    extractionContinuation K cont validate content
      = detailContinuation K cont validate content ∧
    (∀ j r, 1 ≤ j → j ≤ K →
      (∀ i, 1 ≤ i → i < j → cont i ≠ "" ∧ validate (accumBuf cont content i) = none) →
      cont j ≠ "" → validate (accumBuf cont content j) = some r →
      extractionContinuation K cont validate content = ⟨accumBuf cont content j, some r, j⟩ ∧
      detailContinuation K cont validate content = ⟨accumBuf cont content j, some r, j⟩) ∧
    (∀ j, 1 ≤ j → j ≤ K →
      (∀ i, 1 ≤ i → i < j → cont i ≠ "" ∧ validate (accumBuf cont content i) = none) →
      cont j = "" →
      extractionContinuation K cont validate content = ⟨accumBuf cont content (j - 1), none, j⟩ ∧
      detailContinuation K cont validate content = ⟨accumBuf cont content (j - 1), none, j⟩) := by
  refine ⟨contLoopGo_calls_le cont validate K 1 content,
    contLoopGo_calls_le cont validate K 1 content, rfl, ?_, ?_⟩
  · intro j r h1 h2 h3 h4 h5
    have := continuationLoop_first_success j K cont validate content r h1 h2 h3 h4 h5
    exact ⟨this, this⟩
  · intro j h1 h2 h3 h4
    have := continuationLoop_empty_exit j K cont validate content h1 h2 h3 h4
    exact ⟨this, this⟩

theorem continuation_loop_bounded_shared_witness :
    ((1 : Nat) ≤ 1 ∧ (1 : Nat) ≤ 2 ∧ (fun _ : Nat => "x") 1 ≠ "" ∧
      (fun s => if s = "ax" then some 0 else none) (accumBuf (fun _ => "x") "a" 1)
        = some 0) ∧
    extractionContinuation 2 (fun _ => "x") (fun s => if s = "ax" then some 0 else none) "a"
      = ⟨accumBuf (fun _ => "x") "a" 1, some 0, 1⟩ := by
  refine ⟨⟨le_rfl, by decide, by decide, by decide⟩, ?_⟩
  exact ((continuation_loop_bounded_shared 2 (fun _ => "x")
    (fun s => if s = "ax" then some 0 else none) "a").2.2.2.1 1 0 le_rfl (by decide)
    (fun i hi1 hi2 => absurd (Nat.lt_of_le_of_lt hi1 hi2) (by decide))
    (by decide) (by decide)).1

/-! ## Reduction engine -/

theorem reduceLoop_passes_le (summarize : List Char → List Char) (maxChars : Nat) :
    ∀ fuel s, (reduceLoop summarize maxChars fuel s).2 ≤ fuel := by
  intro fuel
  induction fuel with
  | zero => intro s; simp [reduceLoop]
  | succ f ih =>
    intro s
    simp only [reduceLoop]
    split
    · exact Nat.succ_le_succ (ih _)
    · simp

theorem reduceAndTruncate_length_le (summarize : List Char → List Char)
    (maxChars : Nat) (combined : List Char) (hmax : 1 ≤ maxChars) :
    (reduceAndTruncate summarize maxChars combined).1.length ≤ maxChars := by
  unfold reduceAndTruncate
  dsimp only
  split
  · rename_i hlong
    simp only [List.length_append, List.length_cons, List.length_nil, jsSliceUpTo]
    have hstop : ¬ ((maxChars : Int) - 1 < 0) := by omega
    simp only [hstop, if_false, List.length_take]
    omega
  · rename_i hshort
    omega

theorem reduceAndTruncate_passes_le (summarize : List Char → List Char)
    (maxChars : Nat) (combined : List Char) :
    (reduceAndTruncate summarize maxChars combined).2 ≤ maxReduceAttempts := by
  unfold reduceAndTruncate
  dsimp only
  split
  · exact reduceLoop_passes_le summarize maxChars maxReduceAttempts combined
  · exact reduceLoop_passes_le summarize maxChars maxReduceAttempts combined

theorem chunkAndSummarize_eq_reduceAndTruncate (bookText : List Char)
    (chapters : Option (List Chapter)) (maxChars safeCtx : Nat)
    (summarize : List Char → List Char) :
    ∃ combined, chunkAndSummarize bookText chapters maxChars safeCtx summarize
      = reduceAndTruncate summarize maxChars combined := by
  cases chapters with
  | none => exact ⟨_, rfl⟩
  | some chs => exact ⟨_, rfl⟩

theorem chunkAndSummarize_length_le (bookText : List Char) (chapters : Option (List Chapter))
    (maxChars safeCtx : Nat) (summarize : List Char → List Char) (hmax : 1 ≤ maxChars) :
    (chunkAndSummarize bookText chapters maxChars safeCtx summarize).1.length ≤ maxChars := by
  obtain ⟨combined, hc⟩ :=
    chunkAndSummarize_eq_reduceAndTruncate bookText chapters maxChars safeCtx summarize
  rw [hc]
  exact reduceAndTruncate_length_le summarize maxChars combined hmax

/-- **C4 (amended)**: the reduction engine activates exactly when the text
length exceeds `maxCharsForInput`; it performs at most
`maxReduceAttempts = 3` whole-text re-summarization passes; and — provided
`maxCharsForInput ≥ 1` — the text it returns has length at most
`maxCharsForInput`, hard-truncated with an appended `…` marker when still
oversized after the bound. -/
theorem reduction_engine_bounded (bookText : List Char) (chapters : Option (List Chapter))
    (maxChars safeCtx : Nat) (summarize : List Char → List Char) (hmax : 1 ≤ maxChars) :
    (bookText.length ≤ maxChars →
      prepareTextToAnalyze bookText chapters maxChars safeCtx summarize = bookText) ∧
    (maxChars < bookText.length →
      prepareTextToAnalyze bookText chapters maxChars safeCtx summarize =
        (chunkAndSummarize bookText chapters maxChars safeCtx summarize).1) ∧
    (chunkAndSummarize bookText chapters maxChars safeCtx summarize).2 ≤ maxReduceAttempts ∧
    (chunkAndSummarize bookText chapters maxChars safeCtx summarize).1.length ≤ maxChars := by
  refine ⟨?_, ?_, ?_, chunkAndSummarize_length_le bookText chapters maxChars safeCtx summarize hmax⟩
  · intro h
    unfold prepareTextToAnalyze
    simp [Nat.not_lt.mpr h]
  · intro h
    unfold prepareTextToAnalyze
    simp [h]
  · obtain ⟨combined, hc⟩ :=
      chunkAndSummarize_eq_reduceAndTruncate bookText chapters maxChars safeCtx summarize
    rw [hc]
    exact reduceAndTruncate_passes_le summarize maxChars combined

theorem reduction_engine_bounded_witness :
    (1 ≤ 4) ∧
    ((String.toList "ab").length ≤ 4 →
      prepareTextToAnalyze (String.toList "ab") none 4 2 (fun _ => String.toList "s")
        = String.toList "ab") ∧
    (4 < (String.toList "ab").length →
      prepareTextToAnalyze (String.toList "ab") none 4 2 (fun _ => String.toList "s") =
        (chunkAndSummarize (String.toList "ab") none 4 2 (fun _ => String.toList "s")).1) ∧
    (chunkAndSummarize (String.toList "ab") none 4 2 (fun _ => String.toList "s")).2
      ≤ maxReduceAttempts ∧
    (chunkAndSummarize (String.toList "ab") none 4 2 (fun _ => String.toList "s")).1.length ≤ 4 :=
  ⟨by decide, reduction_engine_bounded (String.toList "ab") none 4 2
    (fun _ => String.toList "s") (by decide)⟩

/-- **C4 counterexample**: with `contextLengthTokens = 1` the derived
budget `maxCharsForInput` is `0`, the reduction engine activates on any
non-empty book, and the truncation step returns the one-character marker
string, whose length exceeds the budget — refuting the unconditional
"length at most maxCharsForInput" reading of the claim. -/
theorem reduction_truncation_counterexample :
    maxCharsForInputOf 1 = 0 ∧
    0 < (chunkAndSummarize (String.toList "a") none (maxCharsForInputOf 1)
      (safeContextSize 1) fun _ => String.toList "x").1.length := by
  constructor
  · rfl
  · decide

/-! ## Response repairer: truncation repair -/

/-- **C10**: `repairTruncatedJSON` returns a candidate only when at least
one unclosed bracket remains after trimming; when the trim leaves the
brackets balanced it returns `null`, and `parseAIResponse` then reports a
parse failure even when the trimmed text by itself is valid JSON (witnessed
by the reply `["a"] "b`, whose trim `["a"]` parses). -/
theorem repair_requires_open_bracket :
    (∀ s t, repairTruncatedJSON s = some t → openBrackets (repairTrimmed s) false [] ≠ []) ∧
    (∀ s, openBrackets (repairTrimmed s) false [] = [] → repairTruncatedJSON s = none) ∧
    repairTrimmed (String.toList "[\"a\"] \"b") = String.toList "[\"a\"]" ∧
    (jsonParse (String.toList "[\"a\"]")).isSome = true ∧
    repairTruncatedJSON (String.toList "[\"a\"] \"b") = none ∧
    parseAIResponse (String.toList "[\"a\"] \"b") = none := by
  refine ⟨?_, ?_, rfl, rfl, rfl, rfl⟩
  · intro s t h hnil
    unfold repairTruncatedJSON at h
    simp [hnil] at h
  · intro s h
    unfold repairTruncatedJSON
    simp [h]

theorem repair_requires_open_bracket_witness :
    openBrackets (repairTrimmed (String.toList "\"x")) false [] = [] ∧
    repairTruncatedJSON (String.toList "\"x") = none :=
  ⟨rfl, repair_requires_open_bracket.2.1 (String.toList "\"x") rfl⟩

/-- **C5** (divergence record): on the truncated reply `{"a": 123, "b` the
scan ends inside the open string `"b`; the last complete value before that
string began is the number `123`, but `lastGoodPos` in the code only tracks
`}`, `]` and `"`, so the trim cuts back to `{"a"` — dropping the complete
number value — and the repair yields `{"a"}`, which does not parse, whereas
the repair described by the spec (and by the comment in the code itself, which
includes values ending in `true`, `false`, `null` or a number) would yield
`{"a": 123}`, which parses. -/
theorem repair_trim_drops_complete_number_value :
    repairTrimmed (String.toList "\x7b\"a\": 123, \"b") = String.toList "\x7b\"a\"" ∧
    repairTruncatedJSON (String.toList "\x7b\"a\": 123, \"b")
      = some (String.toList "\x7b\"a\"\x7d") ∧
    jsonParse (String.toList "\x7b\"a\"\x7d") = none ∧
    (jsonParse (String.toList "\x7b\"a\": 123\x7d")).isSome = true ∧
    parseAIResponse (String.toList "\x7b\"a\": 123, \"b") = none :=
  ⟨rfl, rfl, rfl, rfl, rfl⟩

/-! ## Chunker: joining, trimming -/

theorem cleanPara_ne_nil {p : List Char} (h : cleanPara p = true) : p ≠ [] := by
  simp only [cleanPara, Bool.and_eq_true, Bool.not_eq_true'] at h
  simpa [List.isEmpty_iff] using h.1.1.1

theorem cleanPara_noDouble {p : List Char} (h : cleanPara p = true) : noDoubleNl p = true := by
  simp only [cleanPara, Bool.and_eq_true] at h
  exact h.1.1.2

theorem cleanPara_head {p : List Char} (h : cleanPara p = true) :
    ∀ c, p.head? = some c → isWsChar c = false := by
  intro c hc
  simp only [cleanPara, Bool.and_eq_true] at h
  have := h.1.2
  rw [headOkay, hc] at this
  simpa using this

theorem cleanPara_last {p : List Char} (h : cleanPara p = true) :
    ∀ c, p.getLast? = some c → isWsChar c = false := by
  intro c hc
  simp only [cleanPara, Bool.and_eq_true] at h
  have := h.2
  rw [lastOkay, hc] at this
  simpa using this

theorem joinSep_cons (p : List Char) (g : List (List Char)) (hg : g ≠ []) :
    joinSep (p :: g) = p ++ nlnl ++ joinSep g := by
  cases g with
  | nil => exact absurd rfl hg
  | cons q gs => rfl

theorem joinSep_ne_nil (g : List (List Char)) (hg : g ≠ []) (hp : ∀ p ∈ g, p ≠ []) :
    joinSep g ≠ [] := by
  cases g with
  | nil => exact absurd rfl hg
  | cons p gs =>
    cases gs with
    | nil => exact hp p (by simp)
    | cons q gs' =>
      rw [joinSep_cons p (q :: gs') (by simp)]
      simp [nlnl]

theorem joinSep_append (a b : List (List Char)) (ha : a ≠ []) (hb : b ≠ []) :
    joinSep (a ++ b) = joinSep a ++ nlnl ++ joinSep b := by
  induction a with
  | nil => exact absurd rfl ha
  | cons p a' ih =>
    cases a' with
    | nil =>
      rw [List.singleton_append, joinSep_cons p b hb]
      rfl
    | cons q a'' =>
      have h1 : (p :: q :: a'') ++ b = p :: ((q :: a'') ++ b) := rfl
      rw [h1, joinSep_cons p ((q :: a'') ++ b) (by simp),
        ih (by simp), joinSep_cons p (q :: a'') (by simp)]
      simp [List.append_assoc]

theorem joinSep_append_singleton (g : List (List Char)) (p : List Char) (hg : g ≠ []) :
    joinSep (g ++ [p]) = joinSep g ++ nlnl ++ p := by
  rw [joinSep_append g [p] hg (by simp)]
  rfl

theorem currOf_append_singleton (g : List (List Char)) (p : List Char) :
    currOf (g ++ [p]) = currOf g ++ p ++ nlnl := by
  simp [currOf, List.append_assoc]

theorem currOf_isEmpty (g : List (List Char)) : (currOf g).isEmpty = g.isEmpty := by
  cases g with
  | nil => rfl
  | cons p gs =>
    have : currOf (p :: gs) = (p ++ nlnl) ++ currOf gs := by simp [currOf]
    rw [this]
    simp [nlnl]

theorem currOf_eq_joinSep (g : List (List Char)) (hg : g ≠ []) :
    currOf g = joinSep g ++ nlnl := by
  induction g with
  | nil => exact absurd rfl hg
  | cons p gs ih =>
    cases gs with
    | nil => simp [currOf, joinSep]
    | cons q gs' =>
      have h1 : currOf (p :: q :: gs') = (p ++ nlnl) ++ currOf (q :: gs') := by simp [currOf]
      rw [h1, ih (by simp), joinSep_cons p (q :: gs') (by simp)]
      simp [List.append_assoc]

theorem joinSep_head_not_ws (g : List (List Char)) (hg : g ≠ [])
    (hclean : ∀ p ∈ g, cleanPara p = true) :
    ∀ c, (joinSep g).head? = some c → isWsChar c = false := by
  intro c hc
  cases g with
  | nil => exact absurd rfl hg
  | cons p gs =>
    have hp : cleanPara p = true := hclean p (by simp)
    have hphead : (joinSep (p :: gs)).head? = p.head? := by
      cases gs with
      | nil => rfl
      | cons q gs' =>
        rw [joinSep_cons p (q :: gs') (by simp), List.append_assoc, List.head?_append]
        obtain ⟨d, p', rfl⟩ : ∃ d p', p = d :: p' := by
          cases p with
          | nil => exact absurd rfl (cleanPara_ne_nil hp)
          | cons d p' => exact ⟨d, p', rfl⟩
        rfl
    rw [hphead] at hc
    exact cleanPara_head hp c hc

theorem joinSep_last_not_ws (g : List (List Char)) (hg : g ≠ [])
    (hclean : ∀ p ∈ g, cleanPara p = true) :
    ∀ c, (joinSep g).getLast? = some c → isWsChar c = false := by
  induction g with
  | nil => exact absurd rfl hg
  | cons p gs ih =>
    intro c hc
    cases gs with
    | nil => exact cleanPara_last (hclean p (by simp)) c hc
    | cons q gs' =>
      rw [joinSep_cons p (q :: gs') (by simp)] at hc
      have hne : joinSep (q :: gs') ≠ [] :=
        joinSep_ne_nil (q :: gs') (by simp)
          (fun r hr => cleanPara_ne_nil (hclean r (List.mem_cons_of_mem p hr)))
      obtain ⟨d, hd⟩ : ∃ d, (joinSep (q :: gs')).getLast? = some d := by
        cases hj : (joinSep (q :: gs')).getLast? with
        | none => exact absurd (List.getLast?_eq_none_iff.mp hj) hne
        | some d => exact ⟨d, rfl⟩
      rw [List.getLast?_append, hd] at hc
      simp only [Option.or_some, Option.some.injEq] at hc
      subst hc
      exact ih (by simp) (fun r hr => hclean r (List.mem_cons_of_mem p hr)) d hd

theorem dropWhile_of_head_false {p : α → Bool} (c : α) (l : List α) (h : p c = false) :
    List.dropWhile p (c :: l) = c :: l := by
  simp [List.dropWhile_cons, h]

theorem jsTrim_clean_append_nlnl (x : List Char) (hne : x ≠ [])
    (hhead : ∀ c, x.head? = some c → isWsChar c = false)
    (hlast : ∀ c, x.getLast? = some c → isWsChar c = false) :
    jsTrim (x ++ nlnl) = x := by
  obtain ⟨c, x', rfl⟩ : ∃ c x', x = c :: x' := by
    cases x with
    | nil => exact absurd rfl hne
    | cons c x' => exact ⟨c, x', rfl⟩
  unfold jsTrim
  rw [List.cons_append, dropWhile_of_head_false _ _ (hhead c rfl), ← List.cons_append]
  have hrev : ((c :: x') ++ nlnl).reverse = '\n' :: '\n' :: (c :: x').reverse := by
    rw [List.reverse_append]
    rfl
  rw [hrev]
  have hws : isWsChar '\n' = true := rfl
  rw [List.dropWhile_cons, hws, if_pos rfl, List.dropWhile_cons, hws, if_pos rfl]
  obtain ⟨d, r, hr⟩ : ∃ d r, (c :: x').reverse = d :: r := by
    cases hx : (c :: x').reverse with
    | nil => exact absurd hx (by simp)
    | cons d r => exact ⟨d, r, rfl⟩
  have hd : (c :: x').getLast? = some d := by
    rw [← List.head?_reverse, hr]
    rfl
  rw [hr, dropWhile_of_head_false _ _ (hlast d hd), ← hr, List.reverse_reverse]

theorem jsTrim_currOf (g : List (List Char)) (hg : g ≠ [])
    (hclean : ∀ p ∈ g, cleanPara p = true) :
    jsTrim (currOf g) = joinSep g := by
  rw [currOf_eq_joinSep g hg]
  exact jsTrim_clean_append_nlnl (joinSep g)
    (joinSep_ne_nil g hg fun p hp => cleanPara_ne_nil (hclean p hp))
    (joinSep_head_not_ws g hg hclean)
    (joinSep_last_not_ws g hg hclean)

/-! ## Chunker: the paragraph splitter inverts joining -/

theorem noDoubleNl_cons {c : Char} {rest : List Char} (h : noDoubleNl (c :: rest) = true) :
    noDoubleNl rest = true := by
  cases rest with
  | nil => rfl
  | cons b t =>
    simp only [noDoubleNl, Bool.and_eq_true] at h
    exact h.2

theorem noDoubleNl_not_trigger {c : Char} {rest : List Char} (h : noDoubleNl (c :: rest) = true) :
    ¬ (c = '\n' ∧ rest.head? = some '\n') := by
  rintro ⟨rfl, hh⟩
  cases rest with
  | nil => simp at hh
  | cons b t =>
    have hb : b = '\n' := by simpa using hh
    subst hb
    simp [noDoubleNl] at h

theorem splitParasAux_fuel_irrel :
    ∀ f1 f2 (l acc : List Char), l.length ≤ f1 → l.length ≤ f2 →
      splitParasAux f1 l acc = splitParasAux f2 l acc := by
  intro f1
  induction f1 with
  | zero =>
    intro f2 l acc h1 _
    have hl : l = [] := by
      cases l with
      | nil => rfl
      | cons c r => simp at h1
    subst hl
    cases f2 <;> rfl
  | succ f ih =>
    intro f2 l acc h1 h2
    cases l with
    | nil => cases f2 <;> rfl
    | cons c rest =>
      obtain ⟨f2', rfl⟩ : ∃ k, f2 = k + 1 := ⟨f2 - 1, by simp at h2; omega⟩
      simp only [splitParasAux]
      by_cases htrig : c = '\n' ∧ rest.head? = some '\n'
      · rw [if_pos htrig, if_pos htrig]
        congr 1
        exact ih f2' _ []
          (le_trans (List.Sublist.length_le (List.dropWhile_sublist _)) (by simp at h1; omega))
          (le_trans (List.Sublist.length_le (List.dropWhile_sublist _)) (by simp at h2; omega))
      · rw [if_neg htrig, if_neg htrig]
        exact ih f2' rest (c :: acc) (by simp at h1; omega) (by simp at h2; omega)

theorem splitParasAux_no_sep (p : List Char) :
    noDoubleNl p = true →
    ∀ fuel acc, p.length ≤ fuel → splitParasAux fuel p acc = [acc.reverse ++ p] := by
  induction p with
  | nil =>
    intro _ fuel acc _
    cases fuel <;> simp [splitParasAux]
  | cons c rest ih =>
    intro hnd fuel acc h
    obtain ⟨f, rfl⟩ : ∃ k, fuel = k + 1 := ⟨fuel - 1, by simp at h; omega⟩
    simp only [splitParasAux]
    rw [if_neg (noDoubleNl_not_trigger hnd)]
    rw [ih (noDoubleNl_cons hnd) f (c :: acc) (by simp at h; omega)]
    simp

theorem splitParasAux_step (p : List Char) :
    noDoubleNl p = true → p.getLast? ≠ some '\n' →
    ∀ q : List Char, q.head? ≠ some '\n' →
    ∀ fuel acc, p.length + 2 + q.length ≤ fuel →
      splitParasAux fuel (p ++ nlnl ++ q) acc =
        (acc.reverse ++ p) :: splitParasAux q.length q [] := by
  induction p with
  | nil =>
    intro _ _ q hq fuel acc h
    obtain ⟨f, rfl⟩ : ∃ k, fuel = k + 1 := ⟨fuel - 1, by omega⟩
    show splitParasAux (f + 1) ('\n' :: '\n' :: q) acc = _
    simp only [splitParasAux]
    rw [if_pos ?hpos]
    case hpos => simp
    have hdrop : ('\n' :: q).dropWhile (fun x => x = '\n') = q := by
      rw [List.dropWhile_cons, if_pos (by simp)]
      cases q with
      | nil => rfl
      | cons d q' =>
        have hd : d ≠ '\n' := by
          intro hdq
          exact hq (by rw [hdq]; rfl)
        rw [List.dropWhile_cons, if_neg (by simp [hd])]
    rw [hdrop]
    have := splitParasAux_fuel_irrel f q.length q [] (by omega) le_rfl
    rw [this]
    simp
  | cons c p' ih =>
    intro hnd hlast q hq fuel acc h
    obtain ⟨f, rfl⟩ : ∃ k, fuel = k + 1 := ⟨fuel - 1, by omega⟩
    show splitParasAux (f + 1) (c :: (p' ++ nlnl ++ q)) acc = _
    simp only [splitParasAux]
    have hneg : ¬ (c = '\n' ∧ (p' ++ nlnl ++ q).head? = some '\n') := by
      rintro ⟨rfl, hh⟩
      cases p' with
      | nil => exact hlast (by simp)
      | cons b t =>
        have hb : b = '\n' := by simpa using hh
        subst hb
        simp [noDoubleNl] at hnd
    rw [if_neg hneg]
    have hlast' : p'.getLast? ≠ some '\n' := by
      cases p' with
      | nil => simp
      | cons b t =>
        rw [List.getLast?_cons_cons] at hlast
        exact hlast
    rw [ih (noDoubleNl_cons hnd) hlast' q hq f (c :: acc) (by simp at h ⊢; omega)]
    simp

theorem splitParasAux_joinSep (P : List (List Char)) :
    P ≠ [] → (∀ p ∈ P, cleanPara p = true) →
    ∀ fuel, (joinSep P).length ≤ fuel → splitParasAux fuel (joinSep P) [] = P := by
  induction P with
  | nil => intro h; exact absurd rfl h
  | cons p P' ih =>
    intro _ hclean fuel hf
    have hp : cleanPara p = true := hclean p (by simp)
    cases P' with
    | nil =>
      rw [show joinSep [p] = p from rfl] at hf ⊢
      rw [splitParasAux_no_sep p (cleanPara_noDouble hp) fuel [] hf]
      simp
    | cons q P'' =>
      have hclean' : ∀ r ∈ q :: P'', cleanPara r = true :=
        fun r hr => hclean r (List.mem_cons_of_mem p hr)
      rw [joinSep_cons p (q :: P'') (by simp)] at hf ⊢
      have hlast : p.getLast? ≠ some '\n' := by
        intro hl
        have := cleanPara_last hp '\n' hl
        simp [isWsChar] at this
      have hqhead : (joinSep (q :: P'')).head? ≠ some '\n' := by
        intro hl
        have := joinSep_head_not_ws (q :: P'') (by simp) hclean' '\n' hl
        simp [isWsChar] at this
      have hlen : p.length + 2 + (joinSep (q :: P'')).length ≤ fuel := by
        simp [nlnl] at hf
        omega
      rw [splitParasAux_step p (cleanPara_noDouble hp) hlast (joinSep (q :: P'')) hqhead
        fuel [] hlen]
      rw [ih (by simp) hclean' (joinSep (q :: P'')).length le_rfl]
      simp

theorem splitParagraphs_joinSep (P : List (List Char)) (hP : P ≠ [])
    (hclean : ∀ p ∈ P, cleanPara p = true) :
    splitParagraphs (joinSep P) = P :=
  splitParasAux_joinSep P hP hclean (joinSep P).length le_rfl

/-! ## Chunker: greedy packing lemmas -/

theorem nlnl_length : nlnl.length = 2 := rfl

theorem packParas_flatten (budget : Nat) :
    ∀ ps g, (packParas budget ps g).flatten = (if g.isEmpty then [] else g) ++ ps := by
  intro ps
  induction ps with
  | nil =>
    intro g
    simp only [packParas]
    by_cases hg : g.isEmpty <;> simp [hg]
  | cons p ps ih =>
    intro g
    simp only [packParas]
    by_cases hc : (currOf g).length + p.length < budget
    · rw [if_pos hc, ih (g ++ [p])]
      by_cases hg : g.isEmpty
      · have : g = [] := List.isEmpty_iff.mp hg
        subst this
        simp
      · simp [hg]
    · rw [if_neg hc, List.flatten_append, ih [p]]
      by_cases hg : g.isEmpty <;> simp [hg]

theorem packParas_ne_nil (budget : Nat) :
    ∀ ps g h, h ∈ packParas budget ps g → h ≠ [] := by
  intro ps
  induction ps with
  | nil =>
    intro g h hm
    simp only [packParas] at hm
    by_cases hg : g.isEmpty
    · simp [hg] at hm
    · simp only [hg, Bool.false_eq_true, if_false, List.mem_singleton] at hm
      subst hm
      simpa [List.isEmpty_iff] using hg
  | cons p ps ih =>
    intro g h hm
    simp only [packParas] at hm
    by_cases hc : (currOf g).length + p.length < budget
    · rw [if_pos hc] at hm
      exact ih (g ++ [p]) h hm
    · rw [if_neg hc, List.mem_append] at hm
      rcases hm with hm | hm
      · by_cases hg : g.isEmpty
        · simp [hg] at hm
        · simp only [hg, Bool.false_eq_true, if_false, List.mem_singleton] at hm
          subst hm
          simpa [List.isEmpty_iff] using hg
      · exact ih [p] h hm

theorem packParas_budget (budget : Nat) :
    ∀ ps g, (g = [] ∨ g.length = 1 ∨ (joinSep g).length < budget) →
      ∀ h ∈ packParas budget ps g, 1 < h.length → (joinSep h).length < budget := by
  intro ps
  induction ps with
  | nil =>
    intro g hInv h hm hlen
    simp only [packParas] at hm
    by_cases hg : g.isEmpty
    · simp [hg] at hm
    · simp only [hg, Bool.false_eq_true, if_false, List.mem_singleton] at hm
      subst hm
      rcases hInv with rfl | h1 | h2
      · simp at hg
      · omega
      · exact h2
  | cons p ps ih =>
    intro g hInv h hm hlen
    simp only [packParas] at hm
    by_cases hc : (currOf g).length + p.length < budget
    · rw [if_pos hc] at hm
      refine ih (g ++ [p]) ?_ h hm hlen
      by_cases hg : g = []
      · subst hg
        right; left; simp
      · right; right
        rw [joinSep_append_singleton g p hg]
        rw [currOf_eq_joinSep g hg] at hc
        simp only [List.length_append, nlnl_length] at hc ⊢
        omega
    · rw [if_neg hc, List.mem_append] at hm
      rcases hm with hm | hm
      · by_cases hg : g.isEmpty
        · simp [hg] at hm
        · simp only [hg, Bool.false_eq_true, if_false, List.mem_singleton] at hm
          subst hm
          rcases hInv with rfl | h1 | h2
          · simp at hg
          · omega
          · exact h2
      · exact ih [p] (by right; left; rfl) h hm hlen

theorem joinSep_map_joinSep (groups : List (List (List Char)))
    (hne : ∀ g ∈ groups, g ≠ []) :
    joinSep (groups.map joinSep) = joinSep groups.flatten := by
  induction groups with
  | nil => rfl
  | cons g gs ih =>
    cases gs with
    | nil => simp [joinSep]
    | cons g' gs' =>
      have hg : g ≠ [] := hne g (by simp)
      have hflat : (g' :: gs').flatten ≠ [] := by
        have hg' : g' ≠ [] := hne g' (by simp)
        simp only [List.flatten_cons]
        simp [List.append_eq_nil, hg']
      rw [List.map_cons, joinSep_cons (joinSep g) _ (by simp),
        ih (fun x hx => hne x (List.mem_cons_of_mem g hx)),
        show (g :: g' :: gs').flatten = g ++ (g' :: gs').flatten from rfl,
        joinSep_append g _ hg hflat]

/-! ## Chunker: the string loop computes the greedy packing -/

theorem chunkParasAux_eq_packParas (budget : Nat) :
    ∀ ps g chunks, (∀ p ∈ g, cleanPara p = true) → (∀ p ∈ ps, cleanPara p = true) →
      chunkParasAux budget ps (currOf g) chunks
        = chunks ++ (packParas budget ps g).map joinSep := by
  intro ps
  induction ps with
  | nil =>
    intro g chunks hg _
    simp only [chunkParasAux, packParas]
    by_cases hge : g.isEmpty
    · simp [currOf_isEmpty, hge]
    · have hgne : g ≠ [] := by simpa [List.isEmpty_iff] using hge
      simp [currOf_isEmpty, hge, jsTrim_currOf g hgne hg]
  | cons p ps ih =>
    intro g chunks hg hps
    have hp : cleanPara p = true := hps p (by simp)
    have hps' : ∀ r ∈ ps, cleanPara r = true :=
      fun r hr => hps r (List.mem_cons_of_mem p hr)
    have hgp : ∀ r ∈ g ++ [p], cleanPara r = true := by
      intro r hr
      rcases List.mem_append.mp hr with hr | hr
      · exact hg r hr
      · rw [List.mem_singleton] at hr
        subst hr
        exact hp
    simp only [chunkParasAux, packParas]
    by_cases hc : (currOf g).length + p.length < budget
    · rw [if_pos hc, if_pos hc]
      have hcur : currOf g ++ p ++ nlnl = currOf (g ++ [p]) :=
        (currOf_append_singleton g p).symm
      rw [hcur, ih (g ++ [p]) chunks hgp hps']
    · rw [if_neg hc, if_neg hc]
      have hp1 : p ++ nlnl = currOf [p] := by simp [currOf]
      rw [hp1, ih [p] _ (by simpa using hp) hps']
      by_cases hge : g.isEmpty
      · simp [currOf_isEmpty, hge]
      · have hgne : g ≠ [] := by simpa [List.isEmpty_iff] using hge
        simp [currOf_isEmpty, hge, jsTrim_currOf g hgne hg, List.append_assoc]

/-! ## Chunker: chapter-aware packing -/

theorem packChapters_flatten (budget : Nat) :
    ∀ ts g, (packChapters budget ts g).flatten = (if g.isEmpty then [] else g) ++ ts := by
  intro ts
  induction ts with
  | nil =>
    intro g
    simp only [packChapters]
    by_cases hg : g.isEmpty <;> simp [hg]
  | cons t ts ih =>
    intro g
    simp only [packChapters]
    by_cases hc : !g.isEmpty ∧ budget < (currOf g).length + t.length
    · rw [if_pos hc, List.flatten_append, ih [t]]
      have hg : g.isEmpty = false := by simpa using hc.1
      simp [hg]
    · rw [if_neg hc, ih (g ++ [t])]
      by_cases hg : g.isEmpty
      · have : g = [] := List.isEmpty_iff.mp hg
        subst this
        simp
      · simp [hg]

theorem packChapters_ne_nil (budget : Nat) :
    ∀ ts g h, h ∈ packChapters budget ts g → h ≠ [] := by
  intro ts
  induction ts with
  | nil =>
    intro g h hm
    simp only [packChapters] at hm
    by_cases hg : g.isEmpty
    · simp [hg] at hm
    · simp only [hg, Bool.false_eq_true, if_false, List.mem_singleton] at hm
      subst hm
      simpa [List.isEmpty_iff] using hg
  | cons t ts ih =>
    intro g h hm
    simp only [packChapters] at hm
    by_cases hc : !g.isEmpty ∧ budget < (currOf g).length + t.length
    · rw [if_pos hc, List.mem_append] at hm
      rcases hm with hm | hm
      · have hgf := hc.1
        rw [List.mem_singleton] at hm
        rw [hm]
        simpa [List.isEmpty_iff] using hgf
      · exact ih [t] h hm
    · rw [if_neg hc] at hm
      exact ih (g ++ [t]) h hm

theorem packChapters_budget (budget : Nat) :
    ∀ ts g, (∀ t ∈ ts, t.length ≤ budget) →
      (g = [] ∨ (joinSep g).length ≤ budget) →
      ∀ h ∈ packChapters budget ts g, (joinSep h).length ≤ budget := by
  intro ts
  induction ts with
  | nil =>
    intro g _ hInv h hm
    simp only [packChapters] at hm
    by_cases hg : g.isEmpty
    · simp [hg] at hm
    · simp only [hg, Bool.false_eq_true, if_false, List.mem_singleton] at hm
      subst hm
      rcases hInv with rfl | h2
      · simp at hg
      · exact h2
  | cons t ts ih =>
    intro g hts hInv h hm
    have ht : t.length ≤ budget := hts t (by simp)
    have hts' : ∀ r ∈ ts, r.length ≤ budget := fun r hr => hts r (List.mem_cons_of_mem t hr)
    simp only [packChapters] at hm
    by_cases hc : !g.isEmpty ∧ budget < (currOf g).length + t.length
    · rw [if_pos hc, List.mem_append] at hm
      rcases hm with hm | hm
      · rw [List.mem_singleton] at hm
        subst hm
        rcases hInv with rfl | h2
        · simp at hc
        · exact h2
      · exact ih [t] hts' (Or.inr (by simpa [joinSep] using ht)) h hm
    · rw [if_neg hc] at hm
      refine ih (g ++ [t]) hts' ?_ h hm
      by_cases hge : g = []
      · subst hge
        exact Or.inr (by simpa [joinSep] using ht)
      · refine Or.inr ?_
        have hnb : ¬ budget < (currOf g).length + t.length := by
          intro hlt
          exact hc ⟨by simp [List.isEmpty_iff, hge], hlt⟩
        rw [joinSep_append_singleton g t hge]
        rw [currOf_eq_joinSep g hge] at hnb
        simp only [List.length_append, nlnl_length] at hnb ⊢
        omega

theorem chunkByChaptersAux_eq_packChapters (maxTokens : Nat) :
    ∀ (chs : List Chapter) (g : List (List Char)) (chunks : List (List Char)),
      (∀ ch ∈ chs, ch.title = none) →
      (∀ ch ∈ chs, cleanPara ch.text = true) →
      (∀ ch ∈ chs, ch.text.length ≤ maxTokens * CHARS_PER_TOKEN) →
      (∀ p ∈ g, cleanPara p = true) →
      chunkByChaptersAux maxTokens chs (currOf g) chunks
        = chunks ++ (packChapters (maxTokens * CHARS_PER_TOKEN) (chs.map Chapter.text) g).map joinSep := by
  intro chs
  induction chs with
  | nil =>
    intro g chunks _ _ _ hg
    simp only [chunkByChaptersAux, List.map_nil, packChapters]
    by_cases hge : g.isEmpty
    · simp [currOf_isEmpty, hge]
    · have hgne : g ≠ [] := by simpa [List.isEmpty_iff] using hge
      simp [currOf_isEmpty, hge, jsTrim_currOf g hgne hg]
  | cons ch chs ih =>
    intro g chunks htitle hcln hsz hg
    have hct : chapterText ch = ch.text := by
      rw [chapterText.eq_def, htitle ch (by simp)]
    have hclt : cleanPara ch.text = true := hcln ch (by simp)
    have htitle' : ∀ c ∈ chs, c.title = none :=
      fun c hc => htitle c (List.mem_cons_of_mem ch hc)
    have hcln' : ∀ c ∈ chs, cleanPara c.text = true :=
      fun c hc => hcln c (List.mem_cons_of_mem ch hc)
    have hsz' : ∀ c ∈ chs, c.text.length ≤ maxTokens * CHARS_PER_TOKEN :=
      fun c hc => hsz c (List.mem_cons_of_mem ch hc)
    simp only [chunkByChaptersAux, List.map_cons, packChapters]
    rw [hct]
    have hnotover : ¬ (maxTokens * CHARS_PER_TOKEN < ch.text.length) :=
      Nat.not_lt.mpr (hsz ch (by simp))
    rw [if_neg hnotover]
    by_cases hc : !g.isEmpty ∧ maxTokens * CHARS_PER_TOKEN < (currOf g).length + ch.text.length
    · have hcond :
          !(currOf g).isEmpty ∧ maxTokens * CHARS_PER_TOKEN < (currOf g).length + ch.text.length := by
        rw [currOf_isEmpty]
        exact hc
      rw [if_pos hcond, if_pos hc]
      have hgne : g ≠ [] := by
        have := hc.1
        simpa [List.isEmpty_iff] using this
      rw [jsTrim_currOf g hgne hg]
      have hp1 : ch.text ++ nlnl = currOf [ch.text] := by simp [currOf]
      rw [hp1, ih [ch.text] (chunks ++ [joinSep g]) htitle' hcln' hsz' (by simpa using hclt)]
      simp [List.append_assoc]
    · have hcond :
          ¬ (!(currOf g).isEmpty ∧ maxTokens * CHARS_PER_TOKEN < (currOf g).length + ch.text.length) := by
        rw [currOf_isEmpty]
        exact hc
      rw [if_neg hcond, if_neg hc]
      have hcur : currOf g ++ ch.text ++ nlnl = currOf (g ++ [ch.text]) :=
        (currOf_append_singleton g ch.text).symm
      have hgp : ∀ r ∈ g ++ [ch.text], cleanPara r = true := by
        intro r hr
        rcases List.mem_append.mp hr with hr | hr
        · exact hg r hr
        · rw [List.mem_singleton] at hr
          subst hr
          exact hclt
      rw [hcur, ih (g ++ [ch.text]) chunks htitle' hcln' hsz' hgp]

theorem chunkText_joinSep (P : List (List Char)) (maxTokens : Nat)
    (hP : P ≠ []) (hclean : ∀ p ∈ P, cleanPara p = true) :
    chunkText (joinSep P) maxTokens
      = (packParas (maxTokens * CHARS_PER_TOKEN) P []).map joinSep := by
  unfold chunkText
  rw [splitParagraphs_joinSep P hP hclean]
  have h0 : ([] : List Char) = currOf [] := rfl
  rw [h0, chunkParasAux_eq_packParas (maxTokens * CHARS_PER_TOKEN) P [] [] (by simp) hclean]
  simp

theorem chunkByChapters_eq_pack (chs : List Chapter) (maxTokens : Nat)
    (htitle : ∀ ch ∈ chs, ch.title = none)
    (hcln : ∀ ch ∈ chs, cleanPara ch.text = true)
    (hsz : ∀ ch ∈ chs, ch.text.length ≤ maxTokens * CHARS_PER_TOKEN) :
    chunkByChapters chs maxTokens
      = (packChapters (maxTokens * CHARS_PER_TOKEN) (chs.map Chapter.text) []).map joinSep := by
  unfold chunkByChapters
  have h0 : ([] : List Char) = currOf [] := rfl
  rw [h0, chunkByChaptersAux_eq_packChapters maxTokens chs [] [] htitle hcln hsz (by simp)]
  simp

/-- **C6 (amended)**: for clean paragraphs (non-empty, no internal
blank-line run, non-whitespace at both ends) joined by the exact separator
`"\n\n"`, the chunker returns consecutive whole-paragraph groups in input
order: re-joining the chunks with the paragraph separator reproduces the
original text exactly (plain concatenation does not — the separators
between paragraphs are normalised/lost, see the counterexample), no chunk
boundary splits a paragraph, and no chunk reaches the chunk budget except
one that is a single (oversized) paragraph.  In chapter-aware mode with
untitled chapters, clean chapter texts and no oversized chapter, the
chunks are likewise consecutive whole-chapter groups, all within budget. -/
theorem chunker_coverage_amended (P : List (List Char)) (maxTokens : Nat)
    (hP : P ≠ []) (hclean : ∀ p ∈ P, cleanPara p = true) :
    (∃ groups : List (List (List Char)),
      groups.flatten = P ∧
      (∀ g ∈ groups, g ≠ []) ∧
      chunkText (joinSep P) maxTokens = groups.map joinSep ∧
      joinSep (chunkText (joinSep P) maxTokens) = joinSep P ∧
      (∀ c ∈ chunkText (joinSep P) maxTokens,
        maxTokens * CHARS_PER_TOKEN ≤ c.length → c ∈ P)) ∧
    (∀ chs : List Chapter,
      (∀ ch ∈ chs, ch.title = none) →
      (∀ ch ∈ chs, cleanPara ch.text = true) →
      (∀ ch ∈ chs, ch.text.length ≤ maxTokens * CHARS_PER_TOKEN) →
      ∃ groups : List (List (List Char)),
        groups.flatten = chs.map Chapter.text ∧
        (∀ g ∈ groups, g ≠ []) ∧
        chunkByChapters chs maxTokens = groups.map joinSep ∧
        (∀ c ∈ chunkByChapters chs maxTokens, c.length ≤ maxTokens * CHARS_PER_TOKEN)) := by
  constructor
  · refine ⟨packParas (maxTokens * CHARS_PER_TOKEN) P [], ?_, ?_, ?_, ?_, ?_⟩
    · rw [packParas_flatten]
      simp
    · exact fun g hg => packParas_ne_nil _ P [] g hg
    · exact chunkText_joinSep P maxTokens hP hclean
    · rw [chunkText_joinSep P maxTokens hP hclean,
        joinSep_map_joinSep _ (fun g hg => packParas_ne_nil _ P [] g hg),
        packParas_flatten]
      simp
    · intro c hc hlen
      rw [chunkText_joinSep P maxTokens hP hclean] at hc
      rcases List.mem_map.mp hc with ⟨h, hh, rfl⟩
      have hne := packParas_ne_nil (maxTokens * CHARS_PER_TOKEN) P [] h hh
      rcases Nat.lt_or_ge 1 h.length with h1 | h1
      · have := packParas_budget (maxTokens * CHARS_PER_TOKEN) P [] (Or.inl rfl) h hh h1
        omega
      · obtain ⟨q, rfl⟩ : ∃ q, h = [q] := by
          cases h with
          | nil => exact absurd rfl hne
          | cons a t =>
            cases t with
            | nil => exact ⟨a, rfl⟩
            | cons b t' => simp at h1
        have hq : q ∈ (packParas (maxTokens * CHARS_PER_TOKEN) P []).flatten :=
          List.mem_flatten.mpr ⟨[q], hh, by simp⟩
        rw [packParas_flatten] at hq
        simpa [joinSep] using hq
  · intro chs htitle hcln hsz
    refine ⟨packChapters (maxTokens * CHARS_PER_TOKEN) (chs.map Chapter.text) [], ?_, ?_, ?_, ?_⟩
    · rw [packChapters_flatten]
      simp
    · exact fun g hg => packChapters_ne_nil _ _ [] g hg
    · exact chunkByChapters_eq_pack chs maxTokens htitle hcln hsz
    · intro c hc
      rw [chunkByChapters_eq_pack chs maxTokens htitle hcln hsz] at hc
      rcases List.mem_map.mp hc with ⟨h, hh, rfl⟩
      refine packChapters_budget (maxTokens * CHARS_PER_TOKEN) (chs.map Chapter.text) [] ?_
        (Or.inl rfl) h hh
      intro t ht
      rcases List.mem_map.mp ht with ⟨ch, hch, rfl⟩
      exact hsz ch hch

theorem chunker_coverage_amended_witness :
    (([['a'], ['b']] : List (List Char)) ≠ [] ∧
      (∀ p ∈ ([['a'], ['b']] : List (List Char)), cleanPara p = true)) ∧
    ((∃ groups : List (List (List Char)),
      groups.flatten = [['a'], ['b']] ∧
      (∀ g ∈ groups, g ≠ []) ∧
      chunkText (joinSep [['a'], ['b']]) 1 = groups.map joinSep ∧
      joinSep (chunkText (joinSep [['a'], ['b']]) 1) = joinSep [['a'], ['b']] ∧
      (∀ c ∈ chunkText (joinSep [['a'], ['b']]) 1,
        1 * CHARS_PER_TOKEN ≤ c.length → c ∈ [['a'], ['b']])) ∧
    (∀ chs : List Chapter,
      (∀ ch ∈ chs, ch.title = none) →
      (∀ ch ∈ chs, cleanPara ch.text = true) →
      (∀ ch ∈ chs, ch.text.length ≤ 1 * CHARS_PER_TOKEN) →
      ∃ groups : List (List (List Char)),
        groups.flatten = chs.map Chapter.text ∧
        (∀ g ∈ groups, g ≠ []) ∧
        chunkByChapters chs 1 = groups.map joinSep ∧
        (∀ c ∈ chunkByChapters chs 1, c.length ≤ 1 * CHARS_PER_TOKEN))) :=
  ⟨⟨by decide, by decide⟩, chunker_coverage_amended [['a'], ['b']] 1 (by decide) (by decide)⟩

/-- **C6 counterexample**: on the text `A\n\n\nB` (paragraphs separated by
a three-newline run) the chunker, even with a budget large enough for a
single chunk, returns `[A\n\nB]`: both the plain concatenation of the
chunks and their rejoining with the paragraph separator differ from the
original text, so "concatenating the chunks reproduces the original text
exactly" is false. -/
theorem chunker_coverage_counterexample :
    chunkText (String.toList "A\n\n\nB") 100 = [String.toList "A\n\nB"] ∧
    (chunkText (String.toList "A\n\n\nB") 100).flatten ≠ String.toList "A\n\n\nB" ∧
    joinSep (chunkText (String.toList "A\n\n\nB") 100) ≠ String.toList "A\n\n\nB" := by
  refine ⟨rfl, by decide, by decide⟩

end CBM
